import Mathlib

/-!
Verification of the tagged-document corpus model of the question-RAG
repository: the corpus codec (build_corpus_text and the block decoder
in retrieval_tools), the ingestion normalizer, the loader validation,
and the retrieval refinement layer (concept search and id lookup).

Python strings are modelled as lists of characters.  The newline
character is the line terminator recognised by the splitlines model
(the only terminator the codec itself ever emits), and the whitespace
set stripped by strip is the ASCII whitespace set.
-/

/-- A Python string, modelled as its list of characters. -/
abbrev Str := List Char

/-- Characters removed by the Python strip method (ASCII whitespace). -/
def pyWS (c : Char) : Bool :=
  c = ' ' || c = '\t' || c = '\n' || c = '\r' || c = '\x0b' || c = '\x0c'

/-- Removal of trailing whitespace, modelling the right half of strip. -/
def rstripWS : Str → Str
  | [] => []
  | c :: rest =>
    match rstripWS rest with
    | [] => if pyWS c then [] else [c]
    | r :: rs => c :: r :: rs

/-- Python strip: leading whitespace dropped, then trailing whitespace. -/
def pystrip (s : Str) : Str := rstripWS (s.dropWhile pyWS)

/-- Removal of every trailing occurrence of one character, modelling the
Python rstrip method called with a single-character argument. -/
def rstripChar (ch : Char) : Str → Str
  | [] => []
  | c :: rest =>
    match rstripChar ch rest with
    | [] => if c = ch then [] else [c]
    | r :: rs => c :: r :: rs

/-- Worker for the splitlines model: accumulates the current line. -/
def splitlinesGo (acc : Str) : Str → List Str
  | [] => [acc]
  | c :: rest =>
    if c = '\n' then acc :: (if rest.isEmpty then [] else splitlinesGo [] rest)
    else splitlinesGo (acc ++ [c]) rest

/-- Python splitlines with the newline character as terminator: the empty
string yields no lines, and a final terminator does not open a new line. -/
def splitlines (s : Str) : List Str :=
  if s.isEmpty then [] else splitlinesGo [] s

/-- Worker for the single-character split model. -/
def splitOnGo (sep : Char) (acc : Str) : Str → List Str
  | [] => [acc]
  | c :: rest =>
    if c = sep then acc :: splitOnGo sep [] rest
    else splitOnGo sep (acc ++ [c]) rest

/-- Python split with a one-character separator: the empty string yields
one empty piece, matching the Python behaviour. -/
def splitOnChar (sep : Char) (s : Str) : List Str := splitOnGo sep [] s

/-- Python join: the pieces concatenated with the separator between them. -/
def pyJoin (sep : Str) : List Str → Str
  | [] => []
  | [x] => x
  | x :: y :: rest => x ++ sep ++ pyJoin sep (y :: rest)

/-- Join with a newline separator, as used by the codec. -/
def joinNL (pieces : List Str) : Str := pyJoin ['\n'] pieces

/-- Python list slicing xs[a:b] with nonnegative bounds. -/
def pySlice (a b : Nat) (xs : List Str) : List Str := (xs.drop a).take (b - a)

/-- The guarded list.index call of the decoder: the position of the first
occurrence, or none where Python would raise ValueError. -/
def pyIndexOf (target : Str) : List Str → Option Nat
  | [] => none
  | y :: ys => if y = target then some 0 else (pyIndexOf target ys).map (· + 1)

/-- Python str.lower, character by character. -/
def pylower (s : Str) : Str := s.map Char.toLower

/-- The block separator line of the corpus format. -/
def separatorLine : Str := "---".toList

/-- Sentinel id for fragments whose id header is absent or malformed. -/
def UNKNOWN_ID : Str := "UNKNOWN_ID".toList

/-- Sentinel concept for fragments whose concept header is absent. -/
def UNKNOWN : Str := "UNKNOWN".toList

/-- The structured question record: the four fields of the normalized
metadata entries and of the dictionaries returned by the block decoder. -/
structure Doc where
  id : Str
  main_concept : Str
  concepts : List Str
  text : Str
deriving DecidableEq, Repr

/-- Bracket-header extraction of the decoder: on a line starting with the
label in brackets, the remainder with trailing closing brackets removed
and surrounding whitespace stripped; otherwise the given default. -/
def extract (bracket_line : Str) (label : Str) (dflt : Str) : Str :=
  let pfx := '[' :: (label ++ [':'])
  if pfx.isPrefixOf bracket_line then
    pystrip (rstripChar ']' (bracket_line.drop pfx.length))
  else dflt

/-- The body of the fragment decoder for a non-empty line list: header
extraction, concept splitting, separator search and text recovery,
mirroring the source statement for statement. -/
def parse_fields (raw : Str) (lines : List Str) : Doc :=
  let id_ :=
    if 0 < lines.length then extract (lines.getD 0 []) "ID".toList UNKNOWN_ID
    else UNKNOWN_ID
  let main_concept :=
    if 1 < lines.length then extract (lines.getD 1 []) "MAIN_CONCEPT".toList UNKNOWN
    else UNKNOWN
  let concepts_raw :=
    if 2 < lines.length then extract (lines.getD 2 []) "CONCEPTS".toList []
    else []
  let concepts := (splitOnChar ';' concepts_raw).filterMap fun c =>
    let t := pystrip c
    if t.isEmpty then none else some t
  let sep_index := (pyIndexOf separatorLine lines).getD lines.length
  let question_lines := pySlice 4 sep_index lines
  let joined := pystrip (joinNL question_lines)
  let question_text := if joined.isEmpty then pystrip raw else joined
  { id := id_, main_concept := main_concept, concepts := concepts,
    text := question_text }

/-- The fragment decoder of retrieval_tools (the function parsing one
block of the corpus file).  Total by construction: the single fallible
operation of the source, list.index, is guarded by try/except, modelled
with an optional index defaulted to the line count. -/
def _parse_block (raw : Str) : Doc :=
  if (splitlines raw).isEmpty then
    { id := UNKNOWN_ID, main_concept := UNKNOWN, concepts := [], text := pystrip raw }
  else parse_fields raw (splitlines raw)

/-- One bracket header line of the corpus format. -/
def bracketLine (label : Str) (v : Str) : Str :=
  '[' :: (label ++ (':' :: ' ' :: (v ++ [']'])))

/-- One block of the corpus text built for a Document: three bracket
headers, a blank line, the stripped text, a blank line, the separator. -/
def corpus_block (e : Doc) : Str :=
  let q_id := pystrip e.id
  let text := pystrip e.text
  let main_concept := pystrip e.main_concept
  let concepts_str := pyJoin "; ".toList (e.concepts.filter fun c => !c.isEmpty)
  joinNL
    [ bracketLine "ID".toList q_id
    , bracketLine "MAIN_CONCEPT".toList main_concept
    , bracketLine "CONCEPTS".toList concepts_str
    , []
    , text
    , []
    , separatorLine ]

/-- The corpus blob builder of the ingestion pipeline: blocks joined with
a blank line, the whole stripped and given a single trailing newline. -/
def build_corpus_text (entries : List Doc) : Str :=
  pystrip (pyJoin "\n\n".toList (entries.map corpus_block)) ++ ['\n']

/-- One match produced by the upstream concept matcher for one question.
The similarity score attached to a match in the source dataset is never
read by the normalizer, so it is not part of the model. -/
structure RawMatch where
  concept : Str
deriving DecidableEq, Repr

/-- One item of the raw matcher dataset: a question with its matches. -/
structure RawItem where
  question : Str
  matches_ : List RawMatch
deriving DecidableEq, Repr

/-- The raw matcher dataset consumed by the ingestion pipeline. -/
structure RawData where
  questions : List RawItem
deriving DecidableEq, Repr

/-- The decimal digit characters. -/
def decDigit (m : Nat) : Char :=
  match m with
  | 0 => '0'
  | 1 => '1'
  | 2 => '2'
  | 3 => '3'
  | 4 => '4'
  | 5 => '5'
  | 6 => '6'
  | 7 => '7'
  | 8 => '8'
  | _ => '9'

/-- Worker for the decimal representation, structurally recursive on a
fuel bound so that it evaluates inside the kernel. -/
def decReprGo (fuel : Nat) (n : Nat) : Str :=
  match fuel with
  | 0 => []
  | fuel + 1 =>
    if n < 10 then [decDigit n]
    else decReprGo fuel (n / 10) ++ [decDigit (n % 10)]

/-- The decimal representation of a natural number, most significant
digit first, with no leading zeros. -/
def decRepr (n : Nat) : Str := decReprGo (n + 1) n

/-- Left zero padding to a given width, modelling the 03d format code. -/
def zfill (width : Nat) (s : Str) : Str :=
  List.replicate (width - s.length) '0' ++ s

/-- The numeric value of a decimal digit character. -/
def digitVal (c : Char) : Nat := c.toNat - 48

/-- Reading a digit string back as a natural number. -/
def fromDigits (s : Str) : Nat := s.foldl (fun acc c => 10 * acc + digitVal c) 0

/-- The id assigned to the item at the given 1-based position. -/
def assignedId (idx : Nat) : Str := 'q' :: '_' :: zfill 3 (decRepr idx)

/-- Normalization of one raw item at its 1-based position: strip the
question text, assign the padded sequential id, and derive the concept
fields from the matches exactly as the source does. -/
def normalizeItem (idx : Nat) (item : RawItem) : Doc :=
  let q_text := pystrip item.question
  let q_id := assignedId idx
  match item.matches_ with
  | [] => { id := q_id, text := q_text, main_concept := UNKNOWN, concepts := [] }
  | m0 :: _ =>
    { id := q_id, text := q_text, main_concept := m0.concept,
      concepts := (item.matches_.take 3).filterMap fun m =>
        if m.concept.isEmpty then none else some (pystrip m.concept) }

/-- Worker of the normalizer: enumerate items from a starting index. -/
def normalize_go (idx : Nat) : List RawItem → List Doc
  | [] => []
  | item :: rest => normalizeItem idx item :: normalize_go (idx + 1) rest

/-- The normalizer of the ingestion pipeline: one Document per raw item,
enumerated from 1. -/
def normalize_metadata (raw : RawData) : List Doc :=
  normalize_go 1 raw.questions

/-- One scored text fragment returned by the external search backend.
The score is a float in the source; it is carried through untouched and
never compared or computed with, so an integer stands in for it. -/
structure RagContext where
  text : Str
  score : Int
deriving DecidableEq, Repr

/-- One decoded retrieval hit: the four decoded fields plus the score. -/
structure QuestionHit where
  id : Str
  text : Str
  main_concept : Str
  concepts : List Str
  score : Int
deriving DecidableEq, Repr

/-- Free-text search: the backend is the injected raw-query collaborator
mapping a query and a limit to scored fragments; every returned fragment
is decoded by the block parser. -/
def search_questions (backend : Str → Nat → List RagContext)
    (query : Str) (top_k : Nat) : List QuestionHit :=
  (backend query top_k).map fun ctx =>
    let parsed := _parse_block ctx.text
    { id := parsed.id, text := parsed.text, main_concept := parsed.main_concept,
      concepts := parsed.concepts, score := ctx.score }

/-- Concept search: over-fetch three times the requested count, filter to
hits matching the trimmed lower-cased concept, fall back to the raw hits
when the filter keeps nothing, truncate to the requested count. -/
def search_questions_by_concept (backend : Str → Nat → List RagContext)
    (concept : Str) (top_k : Nat) : List QuestionHit :=
  let raw_hits := search_questions backend concept (top_k * 3)
  let target := pylower (pystrip concept)
  let filtered := raw_hits.filter fun h =>
    let concepts_lower := h.concepts.map pylower
    let main_lower := pylower h.main_concept
    target == main_lower || concepts_lower.contains target
  (if filtered.isEmpty then raw_hits else filtered).take top_k

/-- Exact-id lookup: query the backend with the id string and limit 10,
return the first decoded hit whose trimmed lower-cased id matches. -/
def get_question_by_id (backend : Str → Nat → List RagContext)
    (question_id : Str) : Option QuestionHit :=
  let qid := pylower (pystrip question_id)
  let hits := search_questions backend question_id 10
  hits.find? fun h => pylower (pystrip h.id) == qid

/-- A JSON value as returned by the Python json loader. -/
inductive Json where
  | null
  | bool (b : Bool)
  | num (n : Int)
  | str (s : Str)
  | arr (elems : List Json)
  | obj (entries : List (Str × Json))

/-- The Python exceptions reachable from the loader. -/
inductive PyError where
  | fileNotFound
  | valueError
  | typeError
  | keyError
deriving DecidableEq, Repr

/-- Substring test, modelling the Python in operator on strings. -/
def strContains (needle : Str) : Str → Bool
  | [] => needle.isPrefixOf []
  | c :: rest => needle.isPrefixOf (c :: rest) || strContains needle rest

/-- The Python in operator applied to a parsed JSON value: key lookup on
an object, element equality on an array, substring test on a string, and
a TypeError on the remaining value shapes. -/
def pyContains (data : Json) (key : Str) : Except PyError Bool :=
  match data with
  | .obj entries => .ok (entries.any fun kv => kv.1 == key)
  | .arr elems => .ok (elems.any fun el =>
      match el with
      | .str s => s == key
      | _ => false)
  | .str s => .ok (strContains key s)
  | _ => .error .typeError

/-- Python subscripting of a parsed JSON value with a string key. -/
def jsonGet (data : Json) (key : Str) : Except PyError Json :=
  match data with
  | .obj entries =>
    match entries.find? (fun kv => kv.1 == key) with
    | some kv => .ok kv.2
    | none => .error .keyError
  | _ => .error .typeError

/-- Whether a JSON value is a list, modelling the isinstance check. -/
def isListJson : Json → Bool
  | .arr _ => true
  | _ => false

/-- The key validated by the loader. -/
def questionsKey : Str := "questions".toList

/-- The loader of the ingestion pipeline.  The filesystem is modelled as
an optional parsed JSON value: none is an absent file (FileNotFoundError
in the source) and some j is a present file whose well-formed JSON text
parses to j.  The shape check mirrors the source condition with Python
short-circuit evaluation, including the TypeError the in operator or the
subscript raises on non-container values. -/
def load_raw_metadata (input_file : Option Json) : Except PyError Json :=
  match input_file with
  | none => .error .fileNotFound
  | some data =>
    match pyContains data questionsKey with
    | .error e => .error e
    | .ok present =>
      if !present then .error .valueError
      else
        match jsonGet data questionsKey with
        | .error e => .error e
        | .ok v => if !(isListJson v) then .error .valueError else .ok data

/-- The filter predicate of concept search: the target equals the
lower-cased main concept or occurs in the lower-cased concept list. -/
def concept_match (target : Str) (h : QuestionHit) : Bool :=
  target == pylower h.main_concept || (h.concepts.map pylower).contains target

/-- The match predicate of the id lookup: trimmed lower-cased equality
of the decoded id with the queried id. -/
def id_match (question_id : Str) (h : QuestionHit) : Bool :=
  pylower (pystrip h.id) == pylower (pystrip question_id)

/-- Modelled from the claim wording of the normalizer: the concept names
of up to the first three matches, kept verbatim, skipping entries whose
name is empty.  Stated for comparison with the source normalizer, which
strips each kept name. -/
def claimConceptNames (item : RawItem) : List Str :=
  ((item.matches_.take 3).filter fun m => !m.concept.isEmpty).map fun m => m.concept

/-- Modelled from the claim wording of the blob builder: a block whose
concepts header joins every concept of the Document with the separator,
without skipping empty entries.  Stated for comparison with the source
builder, which drops empty concepts before joining. -/
def claim_corpus_block (e : Doc) : Str :=
  joinNL
    [ bracketLine "ID".toList (pystrip e.id)
    , bracketLine "MAIN_CONCEPT".toList (pystrip e.main_concept)
    , bracketLine "CONCEPTS".toList (pyJoin "; ".toList e.concepts)
    , []
    , pystrip e.text
    , []
    , separatorLine ]

/-- The blob builder as the claim words it, on claim-worded blocks. -/
def claim_build_corpus_text (entries : List Doc) : Str :=
  pystrip (pyJoin "\n\n".toList (entries.map claim_corpus_block)) ++ ['\n']

/-- Whether a string is free of newline characters, so that it occupies
a single line of the corpus format. -/
def oneLine (s : Str) : Prop := '\n' ∉ s

/-- Whether a string contains no line equal to the block separator. -/
def noSeparatorLine (s : Str) : Prop := separatorLine ∉ splitOnChar '\n' s

instance (s : Str) : Decidable (oneLine s) :=
  inferInstanceAs (Decidable ('\n' ∉ s))

instance (s : Str) : Decidable (noSeparatorLine s) :=
  inferInstanceAs (Decidable (separatorLine ∉ splitOnChar '\n' s))

theorem length_rstripWS_le (s : Str) : (rstripWS s).length ≤ s.length := by
  induction s with
  | nil => simp [rstripWS]
  | cons c rest ih =>
    rw [rstripWS]
    split
    · split <;> simp
    · next r rs heq =>
      rw [heq] at ih
      simp only [List.length_cons] at ih ⊢
      omega

theorem rstripWS_append_ws (s : Str) (c : Char) (hc : pyWS c = true) :
    rstripWS (s ++ [c]) = rstripWS s := by
  induction s with
  | nil => simp [rstripWS, hc]
  | cons a rest ih =>
    rw [List.cons_append, rstripWS, rstripWS, ih]

theorem rstripWS_eq_self_of_last (s : Str) (b : Char)
    (hb : s.getLast? = some b) (hws : pyWS b = false) : rstripWS s = s := by
  induction s with
  | nil => simp at hb
  | cons a rest ih =>
    cases rest with
    | nil =>
      simp only [List.getLast?_singleton, Option.some.injEq] at hb
      subst hb
      simp [rstripWS, hws]
    | cons x xs =>
      rw [List.getLast?_cons_cons] at hb
      have h1 : rstripWS (x :: xs) = x :: xs := ih hb
      rw [rstripWS, h1]

theorem rstripWS_idem (s : Str) : rstripWS (rstripWS s) = rstripWS s := by
  induction s with
  | nil => simp [rstripWS]
  | cons c rest ih =>
    rw [rstripWS]
    split
    · split
      · simp [rstripWS]
      · next hc => simp [rstripWS, hc]
    · next r rs heq =>
      rw [heq] at ih
      rw [rstripWS, ih]

theorem dropWhile_head_false (p : Char → Bool) (s : Str) (a : Str) (t : Str)
    (h : s.dropWhile p = a) : ∀ b, a = b :: t → p b = false := by
  intro b hb
  subst hb
  induction s with
  | nil => simp at h
  | cons x xs ih =>
    rw [List.dropWhile_cons] at h
    by_cases hx : p x = true
    · rw [if_pos hx] at h
      exact ih h
    · rw [if_neg hx] at h
      cases h
      simpa using hx

theorem length_dropWhile_le (p : Char → Bool) (s : Str) :
    (s.dropWhile p).length ≤ s.length := by
  induction s with
  | nil => simp
  | cons c rest ih =>
    rw [List.dropWhile_cons]
    split
    · simp only [List.length_cons]
      omega
    · simp

theorem head?_dropWhile_false (p : Char → Bool) (s : Str) (b : Char)
    (h : (s.dropWhile p).head? = some b) : p b = false := by
  induction s with
  | nil => simp at h
  | cons x xs ih =>
    rw [List.dropWhile_cons] at h
    by_cases hx : p x = true
    · rw [if_pos hx] at h
      exact ih h
    · rw [if_neg hx] at h
      simp only [List.head?_cons, Option.some.injEq] at h
      subst h
      simpa using hx

theorem head?_rstripWS (s : Str) (h : rstripWS s ≠ []) :
    (rstripWS s).head? = s.head? := by
  induction s with
  | nil => simp [rstripWS] at h
  | cons c rest ih =>
    rw [rstripWS] at h ⊢
    split
    · split
      · next hc => simp_all
      · simp
    · simp

theorem rstripWS_ne_nil_of_head (c : Char) (s : Str) (hc : pyWS c = false) :
    rstripWS (c :: s) ≠ [] := by
  rw [rstripWS]
  split
  · simp [hc]
  · simp

theorem pystrip_cons_ws (c : Char) (s : Str) (hc : pyWS c = true) :
    pystrip (c :: s) = pystrip s := by
  simp [pystrip, List.dropWhile_cons, hc]

theorem pystrip_append_ws (s : Str) (c : Char) (hc : pyWS c = true) :
    pystrip (s ++ [c]) = pystrip s := by
  rw [pystrip, pystrip, List.dropWhile_append]
  split
  · next h =>
    simp only [List.isEmpty_iff] at h
    rw [h]
    simp [List.dropWhile_cons, hc, rstripWS]
  · exact rstripWS_append_ws _ c hc

theorem length_pystrip_le (s : Str) : (pystrip s).length ≤ s.length := by
  rw [pystrip]
  calc (rstripWS (s.dropWhile pyWS)).length
      ≤ (s.dropWhile pyWS).length := length_rstripWS_le _
    _ ≤ s.length := length_dropWhile_le _ _

theorem pystrip_idem (s : Str) : pystrip (pystrip s) = pystrip s := by
  cases h : pystrip s with
  | nil => rfl
  | cons b t =>
    have hb : pyWS b = false := by
      have h1 : rstripWS (s.dropWhile pyWS) = b :: t := h
      have h2 : (rstripWS (s.dropWhile pyWS)).head? = (s.dropWhile pyWS).head? := by
        apply head?_rstripWS
        rw [h1]
        simp
      rw [h1] at h2
      simp only [List.head?_cons] at h2
      exact head?_dropWhile_false pyWS s b h2.symm
    rw [pystrip]
    have hdw : (b :: t).dropWhile pyWS = b :: t := by
      rw [List.dropWhile_cons, if_neg (by simp [hb])]
    rw [hdw]
    have : rstripWS (pystrip s) = pystrip s := by
      rw [pystrip, rstripWS_idem]
    rw [h] at this
    exact this

theorem pystrip_eq_nil_iff (s : Str) : pystrip s = [] ↔ ∀ c ∈ s, pyWS c = true := by
  induction s with
  | nil => simp [pystrip, rstripWS]
  | cons x xs ih =>
    by_cases hx : pyWS x = true
    · rw [pystrip_cons_ws x xs hx, ih]
      simp [hx]
    · constructor
      · intro h
        exfalso
        have hdw : (x :: xs).dropWhile pyWS = x :: xs := by
          rw [List.dropWhile_cons, if_neg (by simp [hx])]
        rw [pystrip, hdw] at h
        exact rstripWS_ne_nil_of_head x xs (by simpa using hx) h
      · intro h
        exfalso
        exact hx (h x (by simp))

theorem getLast?_eq_none_iff_nil {α : Type} (s : List α) : s.getLast? = none ↔ s = [] := by
  cases s with
  | nil => simp
  | cons a t =>
    constructor
    · intro h
      have h5 := List.getLast?_eq_getLast (a :: t) (by simp)
      rw [h] at h5
      exact Option.noConfusion h5
    · intro h
      exact absurd h (by simp)

theorem pystrip_eq_self_of_ends (s : Str)
    (hhead : ∀ b, s.head? = some b → pyWS b = false)
    (hlast : ∀ b, s.getLast? = some b → pyWS b = false) : pystrip s = s := by
  cases s with
  | nil => simp [pystrip, rstripWS]
  | cons a t =>
    have ha : pyWS a = false := hhead a (by simp)
    have hdw : (a :: t).dropWhile pyWS = a :: t := by
      rw [List.dropWhile_cons, if_neg (by simp [ha])]
    rw [pystrip, hdw]
    cases hgl : (a :: t).getLast? with
    | none =>
      rw [getLast?_eq_none_iff_nil] at hgl
      simp at hgl
    | some b =>
      exact rstripWS_eq_self_of_last _ b hgl (hlast b hgl)

theorem trimmed_head (s : Str) (h : pystrip s = s) :
    ∀ b t, s = b :: t → pyWS b = false := by
  intro b t hs
  subst hs
  by_contra hb
  simp only [Bool.not_eq_false] at hb
  have h1 : pystrip (b :: t) = pystrip t := pystrip_cons_ws b t hb
  have h2 : (pystrip t).length ≤ t.length := length_pystrip_le t
  rw [h] at h1
  have : (b :: t).length = (pystrip t).length := by rw [h1]
  simp only [List.length_cons] at this
  omega

theorem trimmed_last (s : Str) (h : pystrip s = s) :
    ∀ b, s.getLast? = some b → pyWS b = false := by
  intro b hgl
  by_contra hb
  simp only [Bool.not_eq_false] at hb
  have hne : s ≠ [] := by
    intro hnil
    rw [hnil] at hgl
    simp at hgl
  have hdecomp : s.dropLast ++ [s.getLast hne] = s := List.dropLast_append_getLast hne
  have hgl2 : s.getLast hne = b := by
    have h5 := List.getLast?_eq_getLast s hne
    rw [hgl] at h5
    simp only [Option.some.injEq] at h5
    exact h5.symm
  rw [hgl2] at hdecomp
  have h1 : pystrip s = pystrip s.dropLast := by
    conv_lhs => rw [← hdecomp]
    exact pystrip_append_ws _ b hb
  have h2 : (pystrip s.dropLast).length ≤ s.dropLast.length := length_pystrip_le _
  have h3 : s.dropLast.length < s.length := by
    rw [← hdecomp]
    simp
  rw [h] at h1
  have h4 := congrArg List.length h1
  omega

theorem rstripChar_append_same (ch : Char) (s : Str) :
    rstripChar ch (s ++ [ch]) = rstripChar ch s := by
  induction s with
  | nil => simp [rstripChar]
  | cons a rest ih => rw [List.cons_append, rstripChar, rstripChar, ih]

theorem rstripChar_eq_self (ch : Char) (s : Str) (h : s.getLast? ≠ some ch) :
    rstripChar ch s = s := by
  induction s with
  | nil => rfl
  | cons a rest ih =>
    cases rest with
    | nil =>
      have ha : (a = ch) = False := by
        simp only [eq_iff_iff, iff_false]
        intro hc
        subst hc
        exact h (by simp)
      simp [rstripChar, ha]
    | cons x xs =>
      rw [List.getLast?_cons_cons] at h
      have h1 := ih h
      rw [rstripChar, h1]

theorem splitOnGo_ne_nil (sep : Char) (acc : Str) (s : Str) :
    splitOnGo sep acc s ≠ [] := by
  induction s generalizing acc with
  | nil => simp [splitOnGo]
  | cons c rest ih =>
    rw [splitOnGo]
    split
    · simp
    · exact ih _

theorem splitOnGo_acc (sep : Char) (acc : Str) (s : Str) :
    splitOnGo sep acc s =
      (acc ++ (splitOnGo sep [] s).headD []) :: (splitOnGo sep [] s).tail := by
  induction s generalizing acc with
  | nil => simp [splitOnGo]
  | cons c rest ih =>
    rw [splitOnGo]
    by_cases hc : c = sep
    · rw [if_pos hc]
      conv_rhs => rw [splitOnGo, if_pos hc]
      simp
    · rw [if_neg hc]
      conv_rhs => rw [splitOnGo, if_neg hc]
      simp only [List.nil_append]
      rw [ih (acc ++ [c]), ih [c]]
      simp

theorem splitOnGo_no_sep (sep : Char) (acc s : Str) (h : sep ∉ s) :
    splitOnGo sep acc s = [acc ++ s] := by
  induction s generalizing acc with
  | nil => simp [splitOnGo]
  | cons c rest ih =>
    have hc : ¬ c = sep := fun he => h (by simp [he])
    rw [splitOnGo, if_neg hc]
    rw [ih _ (fun hm => h (by simp [hm]))]
    simp

theorem joinNL_splitOnGo (acc : Str) (s : Str) :
    joinNL (splitOnGo '\n' acc s) = acc ++ s := by
  induction s generalizing acc with
  | nil => simp [splitOnGo, joinNL, pyJoin]
  | cons c rest ih =>
    rw [splitOnGo]
    by_cases hc : c = '\n'
    · rw [if_pos hc]
      cases hsp : splitOnGo '\n' [] rest with
      | nil => exact absurd hsp (splitOnGo_ne_nil _ _ _)
      | cons hd tl =>
        have ih2 := ih []
        rw [hsp] at ih2
        rw [joinNL, pyJoin, ← joinNL]
        rw [ih2]
        subst hc
        simp
    · rw [if_neg hc]
      rw [ih (acc ++ [c])]
      simp

theorem splitlinesGo_ne_nil (acc : Str) (s : Str) : splitlinesGo acc s ≠ [] := by
  induction s generalizing acc with
  | nil => simp [splitlinesGo]
  | cons c rest ih =>
    rw [splitlinesGo]
    split
    · simp
    · exact ih _

theorem splitlinesGo_append (acc T rest : Str) (hrest : rest ≠ []) :
    splitlinesGo acc (T ++ '\n' :: rest) =
      splitOnGo '\n' acc T ++ splitlinesGo [] rest := by
  induction T generalizing acc with
  | nil =>
    rw [List.nil_append, splitlinesGo, if_pos rfl, splitOnGo]
    rw [if_neg (by simpa using hrest)]
    simp
  | cons c t ih =>
    rw [List.cons_append, splitlinesGo, splitOnGo]
    by_cases hc : c = '\n'
    · rw [if_pos hc, if_pos hc]
      rw [if_neg (by simp)]
      rw [ih []]
      simp
    · rw [if_neg hc, if_neg hc]
      exact ih (acc ++ [c])

theorem splitlinesGo_no_nl (acc s : Str) (h : '\n' ∉ s) :
    splitlinesGo acc s = [acc ++ s] := by
  induction s generalizing acc with
  | nil => simp [splitlinesGo]
  | cons c rest ih =>
    have hc : ¬ c = '\n' := fun he => h (by simp [he])
    rw [splitlinesGo, if_neg hc]
    rw [ih _ (fun hm => h (by simp [hm]))]
    simp

theorem joinNL_append_last (L : List Str) (x : Str) (h : L ≠ []) :
    joinNL (L ++ [x]) = joinNL L ++ '\n' :: x := by
  induction L with
  | nil => exact absurd rfl h
  | cons a rest ih =>
    cases rest with
    | nil => simp [joinNL, pyJoin]
    | cons b r =>
      have e1 : (a :: b :: r) ++ [x] = a :: b :: (r ++ [x]) := by simp
      rw [e1, joinNL, pyJoin, ← joinNL]
      have e2 : b :: (r ++ [x]) = (b :: r) ++ [x] := by simp
      rw [e2, ih (by simp)]
      conv_rhs => rw [joinNL, pyJoin, ← joinNL]
      simp

theorem mem_of_mem_splitlinesGo (acc s : Str) (l : Str) (c : Char)
    (hl : l ∈ splitlinesGo acc s) (hc : c ∈ l) : c ∈ acc ∨ c ∈ s := by
  induction s generalizing acc with
  | nil =>
    rw [splitlinesGo] at hl
    simp only [List.mem_singleton] at hl
    subst hl
    exact Or.inl hc
  | cons x rest ih =>
    rw [splitlinesGo] at hl
    by_cases hx : x = '\n'
    · rw [if_pos hx] at hl
      rcases List.mem_cons.mp hl with h1 | h1
      · subst h1
        exact Or.inl hc
      · by_cases hre : rest.isEmpty
        · rw [if_pos hre] at h1
          simp at h1
        · rw [if_neg hre] at h1
          rcases ih [] h1 with h2 | h2
          · simp at h2
          · exact Or.inr (by simp [h2])
    · rw [if_neg hx] at hl
      rcases ih (acc ++ [x]) hl with h2 | h2
      · rcases List.mem_append.mp h2 with h3 | h3
        · exact Or.inl h3
        · simp only [List.mem_singleton] at h3
          subst h3
          exact Or.inr (by simp)
      · exact Or.inr (by simp [h2])

theorem mem_of_mem_joinNL (L : List Str) (c : Char) (h : c ∈ joinNL L) :
    (∃ l ∈ L, c ∈ l) ∨ c = '\n' := by
  induction L with
  | nil => simp [joinNL, pyJoin] at h
  | cons x rest ih =>
    cases rest with
    | nil =>
      rw [joinNL, pyJoin] at h
      exact Or.inl ⟨x, by simp, h⟩
    | cons y r =>
      rw [joinNL, pyJoin, ← joinNL] at h
      rcases List.mem_append.mp h with h1 | h1
      · rcases List.mem_append.mp h1 with h2 | h2
        · exact Or.inl ⟨x, by simp, h2⟩
        · simp only [List.mem_singleton] at h2
          exact Or.inr h2
      · rcases ih h1 with h2 | h2
        · rcases h2 with ⟨l, hl, hcl⟩
          exact Or.inl ⟨l, by simp [hl], hcl⟩
        · exact Or.inr h2

theorem isEmpty_false_of_ne_nil {α : Type} (s : List α) (h : s ≠ []) : s.isEmpty = false := by
  cases s with
  | nil => exact absurd rfl h
  | cons a t => rfl

theorem isPrefixOf_self_append (p t : Str) : p.isPrefixOf (p ++ t) = true := by
  induction p with
  | nil => simp [List.isPrefixOf]
  | cons a r ih => simp [List.isPrefixOf, ih]

theorem extract_bracketLine (label v dflt : Str) (hv : pystrip v = v)
    (hbr : v.getLast? ≠ some ']') :
    extract (bracketLine label v) label dflt = v := by
  have hsplit : bracketLine label v =
      ('[' :: (label ++ [':'])) ++ (' ' :: (v ++ [']'])) := by
    rw [bracketLine]
    simp
  have hlast : (' ' :: v).getLast? ≠ some ']' := by
    cases v with
    | nil => decide
    | cons a t =>
      rw [List.getLast?_cons_cons]
      exact hbr
  rw [extract, hsplit]
  simp only [isPrefixOf_self_append, if_true, List.drop_left]
  have e1 : ' ' :: (v ++ [']']) = (' ' :: v) ++ [']'] := by simp
  rw [e1, rstripChar_append_same, rstripChar_eq_self _ _ hlast]
  rw [pystrip_cons_ws _ _ (by decide), hv]

theorem mem_of_mem_pyJoin (sep : Str) (L : List Str) (c : Char)
    (h : c ∈ pyJoin sep L) : (∃ l ∈ L, c ∈ l) ∨ c ∈ sep := by
  induction L with
  | nil => simp [pyJoin] at h
  | cons x rest ih =>
    cases rest with
    | nil =>
      rw [pyJoin] at h
      exact Or.inl ⟨x, by simp, h⟩
    | cons y r =>
      rw [pyJoin] at h
      rcases List.mem_append.mp h with h1 | h1
      · rcases List.mem_append.mp h1 with h2 | h2
        · exact Or.inl ⟨x, by simp, h2⟩
        · exact Or.inr h2
      · rcases ih h1 with h2 | h2
        · rcases h2 with ⟨l, hl, hcl⟩
          exact Or.inl ⟨l, by simp [hl], hcl⟩
        · exact Or.inr h2

theorem noNL_bracketLine (label v : Str) (hl : '\n' ∉ label) (hv : '\n' ∉ v) :
    '\n' ∉ bracketLine label v := by
  rw [bracketLine]
  intro hmem
  rcases List.mem_cons.mp hmem with h | h
  · exact absurd h (by decide)
  rcases List.mem_append.mp h with h | h
  · exact hl h
  rcases List.mem_cons.mp h with h | h
  · exact absurd h (by decide)
  rcases List.mem_cons.mp h with h | h
  · exact absurd h (by decide)
  rcases List.mem_append.mp h with h | h
  · exact hv h
  simp only [List.mem_singleton] at h
  exact absurd h (by decide)

theorem splitOnGo_append (sep : Char) (acc a R : Str) (ha : sep ∉ a) :
    splitOnGo sep acc (a ++ sep :: R) = (acc ++ a) :: splitOnGo sep [] R := by
  induction a generalizing acc with
  | nil =>
    rw [List.nil_append, splitOnGo, if_pos rfl]
    simp
  | cons c t ih =>
    have hc : ¬ c = sep := fun he => ha (by simp [he])
    rw [List.cons_append, splitOnGo, if_neg hc]
    rw [ih (acc ++ [c]) (fun hm => ha (by simp [hm]))]
    simp

theorem pyIndexOf_append_none (t : Str) (a b : List Str) (h : ∀ x ∈ a, x ≠ t) :
    pyIndexOf t (a ++ b) = (pyIndexOf t b).map (· + a.length) := by
  induction a with
  | nil =>
    simp only [List.nil_append, List.length_nil]
    cases pyIndexOf t b <;> simp
  | cons y ys ih =>
    rw [List.cons_append, pyIndexOf, if_neg (h y (by simp))]
    rw [ih (fun x hx => h x (by simp [hx]))]
    cases pyIndexOf t b with
    | none => simp
    | some v =>
      simp
      omega

theorem splitlines_block_shape (A B C T S : Str)
    (hA : '\n' ∉ A) (hB : '\n' ∉ B) (hC : '\n' ∉ C) (hS : '\n' ∉ S)
    (hSne : S ≠ []) :
    splitlines (A ++ '\n' :: (B ++ '\n' :: (C ++ '\n' :: '\n' ::
        (T ++ '\n' :: '\n' :: S)))) =
      A :: B :: C :: [] :: (splitOnChar '\n' T ++ ([] :: [S])) := by
  have hne : (A ++ '\n' :: (B ++ '\n' :: (C ++ '\n' :: '\n' ::
      (T ++ '\n' :: '\n' :: S)))) ≠ [] := by simp
  rw [splitlines, if_neg (by simp)]
  rw [splitlinesGo_append [] A _ (by simp)]
  rw [splitOnGo_no_sep _ _ _ hA]
  rw [splitlinesGo_append [] B _ (by simp)]
  rw [splitOnGo_no_sep _ _ _ hB]
  have e1 : C ++ '\n' :: '\n' :: (T ++ '\n' :: '\n' :: S) =
      C ++ '\n' :: ([] ++ '\n' :: (T ++ '\n' :: '\n' :: S)) := by simp
  rw [e1]
  rw [splitlinesGo_append [] C _ (by simp)]
  rw [splitOnGo_no_sep _ _ _ hC]
  rw [splitlinesGo_append [] [] _ (by simp)]
  rw [splitOnGo_no_sep '\n' [] [] (by simp)]
  have e2 : T ++ '\n' :: '\n' :: S = T ++ '\n' :: ([] ++ '\n' :: S) := by simp
  rw [e2]
  rw [splitlinesGo_append [] T _ (by simp)]
  rw [splitlinesGo_append [] [] _ hSne]
  rw [splitOnGo_no_sep '\n' [] [] (by simp)]
  rw [splitlinesGo_no_nl [] S hS]
  simp [splitOnChar]

theorem ne_nil_of_getLast?_some {α : Type} (s : List α) (d : α) (h : s.getLast? = some d) :
    s ≠ [] := by
  intro hnil
  rw [hnil] at h
  simp at h

theorem head?_append_left {α : Type} (a b : List α) (ha : a ≠ []) : (a ++ b).head? = a.head? := by
  cases a with
  | nil => exact absurd rfl ha
  | cons x t => simp

theorem getLast?_pyJoin_of_last (sep : Str) (cs : List Str) (d : Char)
    (h : ∃ x, cs.getLast? = some x ∧ x.getLast? = some d) :
    (pyJoin sep cs).getLast? = some d := by
  induction cs with
  | nil =>
    rcases h with ⟨x, hx, _⟩
    simp at hx
  | cons c rest ih =>
    cases rest with
    | nil =>
      rcases h with ⟨x, hx, hxd⟩
      simp only [List.getLast?_singleton, Option.some.injEq] at hx
      subst hx
      rw [pyJoin]
      exact hxd
    | cons y r =>
      rcases h with ⟨x, hx, hxd⟩
      rw [List.getLast?_cons_cons] at hx
      have hJ := ih ⟨x, hx, hxd⟩
      have hJne : pyJoin sep (y :: r) ≠ [] := ne_nil_of_getLast?_some _ _ hJ
      rw [pyJoin]
      rw [List.getLast?_append_of_ne_nil _ hJne]
      exact hJ

theorem getLast?_mem_self {α : Type} (cs : List α) (x : α) (h : cs.getLast? = some x) :
    x ∈ cs := by
  induction cs with
  | nil => simp at h
  | cons c rest ih =>
    cases rest with
    | nil =>
      simp only [List.getLast?_singleton, Option.some.injEq] at h
      subst h
      simp
    | cons y r =>
      rw [List.getLast?_cons_cons] at h
      exact List.mem_cons_of_mem _ (ih h)

theorem pystrip_join_concepts (cs : List Str)
    (h : ∀ c ∈ cs, pystrip c = c ∧ c ≠ []) (hne : cs ≠ []) :
    pystrip (pyJoin "; ".toList cs) = pyJoin "; ".toList cs := by
  apply pystrip_eq_self_of_ends
  · intro b hb
    cases cs with
    | nil => exact absurd rfl hne
    | cons c rest =>
      have hc := h c (by simp)
      have hhd : (pyJoin "; ".toList (c :: rest)).head? = c.head? := by
        cases rest with
        | nil => rw [pyJoin]
        | cons y r =>
          rw [pyJoin]
          rw [show c ++ "; ".toList ++ pyJoin "; ".toList (y :: r) =
              c ++ ("; ".toList ++ pyJoin "; ".toList (y :: r)) from by simp]
          exact head?_append_left _ _ hc.2
      rw [hhd] at hb
      cases hcs : c with
      | nil => exact absurd hcs hc.2
      | cons a t =>
        rw [hcs] at hb
        simp only [List.head?_cons, Option.some.injEq] at hb
        rw [← hb]
        exact trimmed_head c hc.1 a t hcs
  · intro b hb
    cases hgl : cs.getLast? with
    | none =>
      rw [getLast?_eq_none_iff_nil] at hgl
      exact absurd hgl hne
    | some x =>
      have hx := h x (getLast?_mem_self cs x hgl)
      cases hxl : x.getLast? with
      | none =>
        rw [getLast?_eq_none_iff_nil] at hxl
        exact absurd hxl hx.2
      | some d =>
        have hJ := getLast?_pyJoin_of_last "; ".toList cs d ⟨x, hgl, hxl⟩
        rw [hJ] at hb
        simp only [Option.some.injEq] at hb
        rw [← hb]
        exact trimmed_last x hx.1 d hxl

theorem getLast?_join_concepts_ne_bracket (cs : List Str)
    (h : ∀ c ∈ cs, c ≠ [] ∧ c.getLast? ≠ some ']') :
    (pyJoin "; ".toList cs).getLast? ≠ some ']' := by
  cases hgl : cs.getLast? with
  | none =>
    rw [getLast?_eq_none_iff_nil] at hgl
    subst hgl
    simp [pyJoin]
  | some x =>
    have hx := h x (getLast?_mem_self cs x hgl)
    cases hxl : x.getLast? with
    | none =>
      rw [getLast?_eq_none_iff_nil] at hxl
      exact absurd hxl hx.1
    | some d =>
      have hJ := getLast?_pyJoin_of_last "; ".toList cs d ⟨x, hgl, hxl⟩
      rw [hJ]
      intro hcontra
      apply hx.2
      rw [hxl]
      simpa using hcontra

theorem splitOnChar_pyJoin_semi (cs : List Str) (hsemi : ∀ c ∈ cs, ';' ∉ c)
    (hne : cs ≠ []) :
    splitOnChar ';' (pyJoin "; ".toList cs) =
      cs.headD [] :: (cs.tail.map fun c => ' ' :: c) := by
  induction cs with
  | nil => exact absurd rfl hne
  | cons c rest ih =>
    cases rest with
    | nil =>
      rw [pyJoin, splitOnChar, splitOnGo_no_sep _ _ _ (hsemi c (by simp))]
      simp
    | cons y r =>
      have hj : pyJoin "; ".toList (c :: y :: r) =
          c ++ ';' :: ' ' :: pyJoin "; ".toList (y :: r) := by
        rw [pyJoin]
        simp
      rw [splitOnChar, hj]
      rw [splitOnGo_append ';' [] c _ (hsemi c (by simp))]
      rw [splitOnGo, if_neg (by decide)]
      rw [splitOnGo_acc ';' ([] ++ [' ']) _]
      have ihr := ih (fun x hx => hsemi x (by simp [hx])) (by simp)
      rw [splitOnChar] at ihr
      rw [ihr]
      simp

theorem filterMap_cons_eq_some (F : Str → Option Str) (a : Str) (l : List Str)
    (b : Str) (h : F a = some b) :
    List.filterMap F (a :: l) = b :: List.filterMap F l := by
  rw [List.filterMap_cons, h]

theorem filterMap_space_map (F : Str → Option Str) (rest : List Str)
    (h : ∀ c ∈ rest, F (' ' :: c) = some c) :
    (rest.map fun c => ' ' :: c).filterMap F = rest := by
  induction rest with
  | nil => simp
  | cons c t ih =>
    rw [List.map_cons, List.filterMap_cons, h c (by simp)]
    rw [ih (fun x hx => h x (by simp [hx]))]

theorem concepts_decode_roundtrip (cs : List Str)
    (h : ∀ c ∈ cs, pystrip c = c ∧ c ≠ [] ∧ ';' ∉ c) :
    ((splitOnChar ';' (pyJoin "; ".toList cs)).filterMap fun c =>
        let t := pystrip c
        if t.isEmpty then none else some t) = cs := by
  cases cs with
  | nil => rfl
  | cons c rest =>
    rw [splitOnChar_pyJoin_semi _ (fun x hx => (h x hx).2.2) (by simp)]
    simp only [List.headD_cons, List.tail_cons]
    have hc := h c (by simp)
    have hFc : (if (pystrip c).isEmpty = true then (none : Option Str)
        else some (pystrip c)) = some c := by
      rw [hc.1]
      cases hcc : c with
      | nil => exact absurd hcc hc.2.1
      | cons a t => simp
    rw [filterMap_cons_eq_some _ _ _ _ hFc]
    rw [filterMap_space_map _ rest]
    intro x hx
    have hx2 := h x (by simp [hx])
    have hsp : pystrip (' ' :: x) = x := by
      rw [pystrip_cons_ws _ _ (by decide), hx2.1]
    simp only [hsp]
    cases hxx : x with
    | nil => exact absurd hxx hx2.2.1
    | cons a t => simp

theorem bracketLine_ne_separatorLine (label v : Str) :
    bracketLine label v ≠ separatorLine := by
  intro h
  rw [bracketLine] at h
  have e : separatorLine = '-' :: '-' :: '-' :: [] := rfl
  rw [e] at h
  simp only [List.cons.injEq] at h
  exact absurd h.1 (by decide)

theorem corpus_block_eq (e : Doc) :
    corpus_block e =
      bracketLine "ID".toList (pystrip e.id) ++ '\n' ::
        (bracketLine "MAIN_CONCEPT".toList (pystrip e.main_concept) ++ '\n' ::
          (bracketLine "CONCEPTS".toList
              (pyJoin "; ".toList (e.concepts.filter fun c => !c.isEmpty)) ++
            '\n' :: '\n' :: (pystrip e.text ++ '\n' :: '\n' :: separatorLine))) := by
  rw [corpus_block]
  simp only [joinNL, pyJoin]
  simp

theorem splitlines_corpus_block (d : Doc)
    (hid1 : oneLine d.id) (hid2 : pystrip d.id = d.id)
    (hmc1 : oneLine d.main_concept) (hmc2 : pystrip d.main_concept = d.main_concept)
    (hcsnl : '\n' ∉ pyJoin "; ".toList d.concepts)
    (hfilter : (d.concepts.filter fun c => !c.isEmpty) = d.concepts)
    (ht1 : pystrip d.text = d.text) :
    splitlines (corpus_block d) =
      bracketLine "ID".toList d.id ::
        bracketLine "MAIN_CONCEPT".toList d.main_concept ::
          bracketLine "CONCEPTS".toList (pyJoin "; ".toList d.concepts) :: [] ::
            (splitOnChar '\n' d.text ++ ([] :: [separatorLine])) := by
  have hblock : corpus_block d =
      bracketLine "ID".toList d.id ++ '\n' ::
        (bracketLine "MAIN_CONCEPT".toList d.main_concept ++ '\n' ::
          (bracketLine "CONCEPTS".toList (pyJoin "; ".toList d.concepts) ++
            '\n' :: '\n' :: (d.text ++ '\n' :: '\n' :: separatorLine))) := by
    rw [corpus_block_eq, hfilter, hid2, hmc2, ht1]
  rw [hblock]
  exact splitlines_block_shape _ _ _ _ _
    (noNL_bracketLine _ _ (by decide) hid1)
    (noNL_bracketLine _ _ (by decide) hmc1)
    (noNL_bracketLine _ _ (by decide) hcsnl)
    (by decide) (by decide)


theorem parse_fields_shape (raw : Str) (L0 L1 L2 : Str) (tL : List Str)
    (htL : separatorLine ∉ tL)
    (hL0 : L0 ≠ separatorLine) (hL1 : L1 ≠ separatorLine)
    (hL2 : L2 ≠ separatorLine) :
    parse_fields raw (L0 :: L1 :: L2 :: [] :: (tL ++ ([] :: [separatorLine]))) =
      { id := extract L0 "ID".toList UNKNOWN_ID,
        main_concept := extract L1 "MAIN_CONCEPT".toList UNKNOWN,
        concepts := (splitOnChar ';' (extract L2 "CONCEPTS".toList [])).filterMap
          fun c =>
            let t := pystrip c
            if t.isEmpty then none else some t,
        text :=
          if (pystrip (joinNL (tL ++ [[]]))).isEmpty then pystrip raw
          else pystrip (joinNL (tL ++ [[]])) } := by
  have hidx : pyIndexOf separatorLine
      (L0 :: L1 :: L2 :: [] :: (tL ++ ([] :: [separatorLine]))) =
      some (tL.length + 5) := by
    have e1 : L0 :: L1 :: L2 :: [] :: (tL ++ ([] :: [separatorLine])) =
        ((L0 :: L1 :: L2 :: [] :: (tL ++ [([] : Str)])) ++ [separatorLine]) := by
      simp
    rw [e1]
    rw [pyIndexOf_append_none]
    · rw [show pyIndexOf separatorLine [separatorLine] = some 0 from by
        rw [pyIndexOf, if_pos rfl]]
      show some (0 + (L0 :: L1 :: L2 :: [] :: (tL ++ [([] : Str)])).length) =
        some (tL.length + 5)
      congr 1
      simp only [List.length_cons, List.length_append, List.length_nil]
      omega
    · intro x hx
      simp only [List.mem_cons, List.mem_append, List.mem_singleton] at hx
      rcases hx with h | h | h | h | h
      · subst h
        exact hL0
      · subst h
        exact hL1
      · subst h
        exact hL2
      · subst h
        decide
      · rcases h with h | h
        · intro he
          subst he
          exact htL h
        · rcases h with h | h
          · subst h
            decide
          · simp at h
  have hslice : pySlice 4 (tL.length + 5)
      (L0 :: L1 :: L2 :: [] :: (tL ++ ([] :: [separatorLine]))) = tL ++ [[]] := by
    rw [pySlice]
    have e2 : List.drop 4
        (L0 :: L1 :: L2 :: [] :: (tL ++ ([] :: [separatorLine]))) =
        tL ++ ([] :: [separatorLine]) := rfl
    rw [e2]
    have e3 : tL.length + 5 - 4 = tL.length + 1 := by omega
    rw [e3]
    rw [List.take_append 1]
    rfl
  simp only [parse_fields]
  rw [if_pos (show 0 < (L0 :: L1 :: L2 :: [] ::
      (tL ++ ([] :: [separatorLine]))).length from by
    simp only [List.length_cons]
    omega)]
  rw [if_pos (show 1 < (L0 :: L1 :: L2 :: [] ::
      (tL ++ ([] :: [separatorLine]))).length from by
    simp only [List.length_cons]
    omega)]
  rw [if_pos (show 2 < (L0 :: L1 :: L2 :: [] ::
      (tL ++ ([] :: [separatorLine]))).length from by
    simp only [List.length_cons]
    omega)]
  rw [show (L0 :: L1 :: L2 :: [] ::
      (tL ++ ([] :: [separatorLine]))).getD 0 [] = L0 from rfl]
  rw [show (L0 :: L1 :: L2 :: [] ::
      (tL ++ ([] :: [separatorLine]))).getD 1 [] = L1 from rfl]
  rw [show (L0 :: L1 :: L2 :: [] ::
      (tL ++ ([] :: [separatorLine]))).getD 2 [] = L2 from rfl]
  rw [hidx]
  simp only [Option.getD_some]
  rw [hslice]

theorem splitOnChar_ne_nil (sep : Char) (s : Str) : splitOnChar sep s ≠ [] := by
  rw [splitOnChar]
  exact splitOnGo_ne_nil _ _ _

theorem pystrip_text_block (t : Str) (ht1 : pystrip t = t) :
    pystrip (joinNL (splitOnChar '\n' t ++ [[]])) = t := by
  rw [joinNL_append_last _ _ (splitOnChar_ne_nil _ _)]
  rw [show joinNL (splitOnChar '\n' t) = t from by
    rw [splitOnChar]
    simpa using joinNL_splitOnGo [] t]
  rw [show t ++ '\n' :: ([] : Str) = t ++ ['\n'] from rfl]
  rw [pystrip_append_ws _ _ (by decide)]
  exact ht1

theorem roundtrip_amended (d : Doc)
    (hid1 : oneLine d.id) (hid2 : pystrip d.id = d.id)
    (hid3 : d.id.getLast? ≠ some ']')
    (hmc1 : oneLine d.main_concept)
    (hmc2 : pystrip d.main_concept = d.main_concept)
    (hmc3 : d.main_concept.getLast? ≠ some ']')
    (hcs : ∀ c ∈ d.concepts,
      oneLine c ∧ pystrip c = c ∧ c ≠ [] ∧ ';' ∉ c ∧ c.getLast? ≠ some ']')
    (ht1 : pystrip d.text = d.text) (ht2 : d.text ≠ [])
    (ht3 : noSeparatorLine d.text) :
    _parse_block (corpus_block d) = d := by
  have hfilter : (d.concepts.filter fun c => !c.isEmpty) = d.concepts := by
    rw [List.filter_eq_self]
    intro a ha
    have h1 := (hcs a ha).2.2.1
    cases a with
    | nil => exact absurd rfl h1
    | cons x t => rfl
  have hcsnl : '\n' ∉ pyJoin "; ".toList d.concepts := by
    intro hm
    rcases mem_of_mem_pyJoin _ _ _ hm with ⟨l, hl, hcl⟩ | hsep
    · exact (hcs l hl).1 hcl
    · exact absurd hsep (by decide)
  have hlines := splitlines_corpus_block d hid1 hid2 hmc1 hmc2 hcsnl hfilter ht1
  have hJtrim : pystrip (pyJoin "; ".toList d.concepts) =
      pyJoin "; ".toList d.concepts := by
    by_cases hd : d.concepts = []
    · rw [hd]
      rfl
    · exact pystrip_join_concepts _
        (fun c hcm => ⟨(hcs c hcm).2.1, (hcs c hcm).2.2.1⟩) hd
  have hJlast : (pyJoin "; ".toList d.concepts).getLast? ≠ some ']' :=
    getLast?_join_concepts_ne_bracket _
      (fun c hcm => ⟨(hcs c hcm).2.2.1, (hcs c hcm).2.2.2.2⟩)
  rw [_parse_block, hlines]
  rw [if_neg (by simp)]
  rw [parse_fields_shape _ _ _ _ _ ht3
    (bracketLine_ne_separatorLine _ _)
    (bracketLine_ne_separatorLine _ _)
    (bracketLine_ne_separatorLine _ _)]
  rw [extract_bracketLine _ _ _ hid2 hid3]
  rw [extract_bracketLine _ _ _ hmc2 hmc3]
  rw [extract_bracketLine _ _ _ hJtrim hJlast]
  rw [concepts_decode_roundtrip d.concepts
    (fun c hcm => ⟨(hcs c hcm).2.1, (hcs c hcm).2.2.1, (hcs c hcm).2.2.2.1⟩)]
  rw [pystrip_text_block d.text ht1]
  rw [if_neg (by simp [isEmpty_false_of_ne_nil d.text ht2])]


theorem parse_fields_text (raw : Str) (L : List Str) :
    (parse_fields raw L).text =
      (if (pystrip (joinNL (pySlice 4
          ((pyIndexOf separatorLine L).getD L.length) L))).isEmpty then pystrip raw
       else pystrip (joinNL (pySlice 4
          ((pyIndexOf separatorLine L).getD L.length) L))) := rfl

theorem splitlines_eq_nil_iff (s : Str) : splitlines s = [] ↔ s = [] := by
  rw [splitlines]
  cases s with
  | nil => simp
  | cons c t =>
    rw [if_neg (by simp)]
    constructor
    · intro h
      exact absurd h (splitlinesGo_ne_nil _ _)
    · intro h
      exact absurd h (by simp)

/-- Claim C2: decode totality and robustness.  The decoder is a total
function of the input by construction (the one fallible source
operation, list.index, is guarded), and on the three inputs named by
the specification it succeeds, defaulting every field whose data is
absent: the empty string yields the unknown id, the unknown concept and
no concepts; a lone ID header yields the parsed id with the other
headers defaulted; a block missing the trailing separator parses every
field, the text running to end of input. -/
theorem parse_block_robustness :
    _parse_block [] =
      { id := UNKNOWN_ID, main_concept := UNKNOWN, concepts := [], text := [] } ∧
    _parse_block "[ID: q_001]".toList =
      { id := "q_001".toList, main_concept := UNKNOWN, concepts := [],
        text := "[ID: q_001]".toList } ∧
    _parse_block
        "[ID: q_002]\n[MAIN_CONCEPT: algebra]\n[CONCEPTS: a; b]\n\nSome question".toList =
      { id := "q_002".toList, main_concept := "algebra".toList,
        concepts := ["a".toList, "b".toList], text := "Some question".toList } := by
  decide

/-- Claim C3, amended: for an input with at least one line the decoded
text is the content of lines four up to the first separator line (or to
the end when there is none), joined and stripped, except that when that
stripped content is empty the decoder falls back to the whole stripped
input; for the zero-line input the whole stripped input becomes the
text and the other fields take their defaults. -/
theorem parse_block_text_extraction (raw : Str) :
    (splitlines raw ≠ [] →
      (_parse_block raw).text =
        (if (pystrip (joinNL (pySlice 4
            ((pyIndexOf separatorLine (splitlines raw)).getD
              (splitlines raw).length) (splitlines raw)))).isEmpty then pystrip raw
         else pystrip (joinNL (pySlice 4
            ((pyIndexOf separatorLine (splitlines raw)).getD
              (splitlines raw).length) (splitlines raw))))) ∧
    (splitlines raw = [] →
      _parse_block raw =
        { id := UNKNOWN_ID, main_concept := UNKNOWN, concepts := [],
          text := pystrip raw }) := by
  constructor
  · intro h
    rw [_parse_block, if_neg (by simp [isEmpty_false_of_ne_nil _ h])]
    exact parse_fields_text raw (splitlines raw)
  · intro h
    rw [_parse_block, h]
    rfl

/-- Witness for claim C3 at a concrete block: the body is recovered. -/
theorem parse_block_text_extraction_witness :
    (_parse_block "[ID: q_007]\n[MAIN_CONCEPT: m]\n[CONCEPTS: ]\n\nBody\n\n---".toList).text =
      "Body".toList := by
  rw [(parse_block_text_extraction
    "[ID: q_007]\n[MAIN_CONCEPT: m]\n[CONCEPTS: ]\n\nBody\n\n---".toList).1
    (by decide)]
  decide

/-- Counterexample for claim C3 as stated: the input consisting of a
lone ID header has one line and an empty lines-four-onward region, yet
its decoded text is the whole raw input rather than that empty content,
and the whole input becomes the text although the line count is not
zero. -/
theorem parse_block_text_extraction_counterexample :
    (splitlines "[ID: q_001]".toList).length = 1 ∧
    joinNL (pySlice 4
      ((pyIndexOf separatorLine (splitlines "[ID: q_001]".toList)).getD
        (splitlines "[ID: q_001]".toList).length)
      (splitlines "[ID: q_001]".toList)) = [] ∧
    (_parse_block "[ID: q_001]".toList).text = "[ID: q_001]".toList ∧
    "[ID: q_001]".toList ≠ ([] : Str) := by
  decide

/-- Claim C10: when an input has at least one line and the region from
line four to the first separator line is absent or all whitespace, the
decoded text is the whole raw input stripped; consequently the decoded
text is empty exactly when the whole raw input is whitespace. -/
theorem parse_block_blank_body_fallback (raw : Str) :
    (splitlines raw ≠ [] →
      (∀ l ∈ pySlice 4 ((pyIndexOf separatorLine (splitlines raw)).getD
          (splitlines raw).length) (splitlines raw), ∀ c ∈ l, pyWS c = true) →
      (_parse_block raw).text = pystrip raw) ∧
    ((_parse_block raw).text = [] ↔ pystrip raw = []) := by
  constructor
  · intro h hws
    rw [_parse_block, if_neg (by simp [isEmpty_false_of_ne_nil _ h])]
    rw [parse_fields_text]
    have hj : pystrip (joinNL (pySlice 4
        ((pyIndexOf separatorLine (splitlines raw)).getD
          (splitlines raw).length) (splitlines raw))) = [] := by
      rw [pystrip_eq_nil_iff]
      intro c hc
      rcases mem_of_mem_joinNL _ _ hc with ⟨l, hl, hcl⟩ | hnl
      · exact hws l hl c hcl
      · subst hnl
        decide
    rw [hj]
    simp
  · by_cases h0 : splitlines raw = []
    · rw [_parse_block, h0]
      simp
    · have hrawne : raw ≠ [] := by
        intro hh
        rw [hh] at h0
        exact h0 rfl
      rw [_parse_block, if_neg (by simp [isEmpty_false_of_ne_nil _ h0])]
      rw [parse_fields_text]
      by_cases hj : pystrip (joinNL (pySlice 4
          ((pyIndexOf separatorLine (splitlines raw)).getD
            (splitlines raw).length) (splitlines raw))) = []
      · rw [hj]
        simp
      · rw [if_neg (by rw [isEmpty_false_of_ne_nil _ hj]; simp)]
        have hstripne : pystrip raw ≠ [] := by
          intro hraw
          apply hj
          rw [pystrip_eq_nil_iff] at hraw ⊢
          intro c hc
          rcases mem_of_mem_joinNL _ _ hc with ⟨l, hl, hcl⟩ | hnl
          · have hl2 : l ∈ splitlines raw := by
              rw [pySlice] at hl
              exact List.mem_of_mem_drop (List.mem_of_mem_take hl)
            have hcraw : c ∈ raw := by
              rw [splitlines,
                if_neg (by simp [isEmpty_false_of_ne_nil _ hrawne])] at hl2
              rcases mem_of_mem_splitlinesGo [] raw l c hl2 hcl with hx | hx
              · simp at hx
              · exact hx
            exact hraw c hcraw
          · subst hnl
            decide
        exact ⟨fun hc => absurd hc hj, fun hc => absurd hc hstripne⟩

/-- Witness for claim C10 at a concrete block whose body region is all
whitespace: the decoded text is the whole stripped input, and the
emptiness equivalence holds at that input. -/
theorem parse_block_blank_body_fallback_witness :
    (_parse_block "[ID: q_001]\n[MAIN_CONCEPT: m]\n[CONCEPTS: ]\n\n   \n\n---".toList).text =
      pystrip "[ID: q_001]\n[MAIN_CONCEPT: m]\n[CONCEPTS: ]\n\n   \n\n---".toList :=
  (parse_block_blank_body_fallback
    "[ID: q_001]\n[MAIN_CONCEPT: m]\n[CONCEPTS: ]\n\n   \n\n---".toList).1
    (by decide) (by decide)

theorem take_ne_nil_of_pos {α : Type} (k : Nat) (l : List α)
    (hk : 0 < k) (hl : l ≠ []) : l.take k ≠ [] := by
  cases k with
  | zero => omega
  | succ m =>
    cases l with
    | nil => exact absurd rfl hl
    | cons a t => simp

/-- Claim C4: concept search issues the raw query with limit three times
the requested count, keeps exactly the hits whose lower-cased main
concept equals the trimmed lower-cased concept or whose lower-cased
concepts contain it, preserving backend order and truncating to the
requested count; when the filter keeps nothing it returns the first
requested-count raw hits instead, so that, for a backend returning at
most as many fragments as its limit, the result is non-empty whenever
the raw hits are non-empty. -/
theorem search_by_concept_spec (backend : Str → Nat → List RagContext)
    (concept : Str) (top_k : Nat)
    (hB : ∀ q k, (backend q k).length ≤ k) :
    search_questions_by_concept backend concept top_k =
      (if ((search_questions backend concept (top_k * 3)).filter
            (concept_match (pylower (pystrip concept)))).isEmpty then
          search_questions backend concept (top_k * 3)
        else (search_questions backend concept (top_k * 3)).filter
          (concept_match (pylower (pystrip concept)))).take top_k ∧
    (search_questions backend concept (top_k * 3) ≠ [] →
      search_questions_by_concept backend concept top_k ≠ []) := by
  constructor
  · rfl
  · intro hraw
    have hlen : (search_questions backend concept (top_k * 3)).length ≤ top_k * 3 := by
      rw [search_questions]
      rw [List.length_map]
      exact hB concept (top_k * 3)
    have htop : 0 < top_k := by
      by_contra hc
      have h0 : top_k = 0 := by omega
      subst h0
      apply hraw
      apply List.length_eq_zero.mp
      omega
    show ((if ((search_questions backend concept (top_k * 3)).filter
          (concept_match (pylower (pystrip concept)))).isEmpty then
        search_questions backend concept (top_k * 3)
      else (search_questions backend concept (top_k * 3)).filter
        (concept_match (pylower (pystrip concept)))).take top_k) ≠ []
    by_cases hf : ((search_questions backend concept (top_k * 3)).filter
        (concept_match (pylower (pystrip concept)))).isEmpty
    · rw [if_pos hf]
      exact take_ne_nil_of_pos _ _ htop hraw
    · rw [if_neg hf]
      apply take_ne_nil_of_pos _ _ htop
      intro hc
      rw [hc] at hf
      exact hf rfl

/-- Witness for claim C4: a limit-honoring backend returning one
fragment per requested slot yields a non-empty concept-search result. -/
theorem search_by_concept_spec_witness :
    search_questions_by_concept
      (fun _ k => List.replicate k { text := "x".toList, score := 0 })
      "alg".toList 1 ≠ [] :=
  (search_by_concept_spec
    (fun _ k => List.replicate k { text := "x".toList, score := 0 })
    "alg".toList 1 (by intro q k; simp)).2 (by decide)

/-- Claim C5: the id lookup queries the backend with the raw id string
and limit ten, returns the first decoded hit in backend order whose
trimmed lower-cased id equals the trimmed lower-cased query, returns
the absence value when none of those candidates match, and its outcome
depends only on the backend reply to that query at limit ten, so a
match ranked beyond the ten returned candidates is never seen. -/
theorem get_by_id_spec (backend : Str → Nat → List RagContext)
    (question_id : Str) :
    get_question_by_id backend question_id =
      (search_questions backend question_id 10).find? (id_match question_id) ∧
    ((∀ h_ ∈ search_questions backend question_id 10,
        id_match question_id h_ = false) →
      get_question_by_id backend question_id = none) ∧
    (∀ backend2 : Str → Nat → List RagContext,
      backend question_id 10 = backend2 question_id 10 →
      get_question_by_id backend question_id =
        get_question_by_id backend2 question_id) := by
  refine ⟨rfl, ?_, ?_⟩
  · intro hnone
    show (search_questions backend question_id 10).find? (id_match question_id) = none
    rw [List.find?_eq_none]
    intro x hx
    simp [hnone x hx]
  · intro backend2 heq
    have hs : search_questions backend question_id 10 =
        search_questions backend2 question_id 10 := by
      rw [search_questions, search_questions, heq]
    show (search_questions backend question_id 10).find? (id_match question_id) =
      (search_questions backend2 question_id 10).find? (id_match question_id)
    rw [hs]

/-- Witness for claim C5: with a backend returning nothing, the lookup
returns the absence value. -/
theorem get_by_id_spec_witness :
    get_question_by_id (fun _ _ => ([] : List RagContext)) "q_001".toList = none :=
  (get_by_id_spec (fun _ _ => []) "q_001".toList).2.1
    (by intro x hx; simp [search_questions] at hx)

theorem digitVal_decDigit (m : Nat) (h : m < 10) : digitVal (decDigit m) = m := by
  interval_cases m <;> decide

theorem fromDigits_append_digit (s : Str) (c : Char) :
    fromDigits (s ++ [c]) = 10 * fromDigits s + digitVal c := by
  rw [fromDigits, fromDigits, List.foldl_append]
  rfl

theorem fromDigits_decReprGo (fuel n : Nat) (h : n < fuel) :
    fromDigits (decReprGo fuel n) = n := by
  induction fuel generalizing n with
  | zero => omega
  | succ f ih =>
    rw [decReprGo]
    by_cases hn : n < 10
    · rw [if_pos hn]
      simp [fromDigits, List.foldl, digitVal_decDigit n hn]
    · rw [if_neg hn]
      rw [fromDigits_append_digit]
      have hd : n / 10 < n := Nat.div_lt_self (by omega) (by omega)
      rw [ih (n / 10) (by omega)]
      rw [digitVal_decDigit (n % 10) (Nat.mod_lt _ (by omega))]
      omega

theorem fromDigits_decRepr (n : Nat) : fromDigits (decRepr n) = n :=
  fromDigits_decReprGo _ _ (by omega)

theorem foldl_zero_replicate (k : Nat) :
    List.foldl (fun acc c => 10 * acc + digitVal c) 0 (List.replicate k '0') = 0 := by
  induction k with
  | zero => rfl
  | succ m ih =>
    rw [List.replicate_succ, List.foldl_cons]
    exact ih

theorem fromDigits_zfill (w : Nat) (s : Str) :
    fromDigits (zfill w s) = fromDigits s := by
  rw [zfill, fromDigits, fromDigits, List.foldl_append, foldl_zero_replicate]

theorem fromDigits_assignedId (n : Nat) :
    fromDigits ((assignedId n).drop 2) = n := by
  rw [assignedId]
  rw [show ('q' :: '_' :: zfill 3 (decRepr n)).drop 2 = zfill 3 (decRepr n) from rfl]
  rw [fromDigits_zfill, fromDigits_decRepr]

theorem normalizeItem_id (idx : Nat) (item : RawItem) :
    (normalizeItem idx item).id = assignedId idx := by
  rw [normalizeItem]
  cases item.matches_ <;> rfl

theorem normalize_go_length (idx : Nat) (items : List RawItem) :
    (normalize_go idx items).length = items.length := by
  induction items generalizing idx with
  | nil => rfl
  | cons it rest ih => simp [normalize_go, ih]

theorem normalize_go_get? (idx k : Nat) (items : List RawItem) :
    (normalize_go idx items).get? k = (items.get? k).map (normalizeItem (idx + k)) := by
  induction items generalizing idx k with
  | nil => simp [normalize_go]
  | cons it rest ih =>
    cases k with
    | zero => simp [normalize_go]
    | succ m =>
      rw [normalize_go]
      show (normalize_go (idx + 1) rest).get? m = (rest.get? m).map (normalizeItem (idx + (m + 1)))
      rw [ih (idx + 1) m]
      have e : idx + 1 + m = idx + (m + 1) := by omega
      rw [e]

theorem mem_normalize_go (idx : Nat) (items : List RawItem) (d : Doc)
    (h : d ∈ normalize_go idx items) :
    ∃ i item, d = normalizeItem i item := by
  induction items generalizing idx with
  | nil => simp [normalize_go] at h
  | cons it rest ih =>
    rw [normalize_go] at h
    rcases List.mem_cons.mp h with h1 | h1
    · exact ⟨idx, it, h1⟩
    · exact ih (idx + 1) h1

theorem parse_fields_concepts (raw : Str) (L : List Str) :
    (parse_fields raw L).concepts =
      (splitOnChar ';'
        (if 2 < L.length then extract (L.getD 2 []) "CONCEPTS".toList []
         else [])).filterMap fun c =>
        let t := pystrip c
        if t.isEmpty then none else some t := rfl

/-- Claim C6, amended: the normalizer yields one record per input item
in input order; the record at 0-based position i carries the id built
from i + 1 zero-padded to three digits, the stripped question text, the
verbatim concept of the first match (or the unknown sentinel when there
is none), and the stripped names of up to the first three matches,
skipping matches whose raw name is empty; the numeric suffixes of the
ids are strictly increasing along the output. -/
theorem normalize_metadata_spec (raw : RawData) :
    (normalize_metadata raw).length = raw.questions.length ∧
    (∀ i (hi : i < (normalize_metadata raw).length)
        (hq : i < raw.questions.length),
      (normalize_metadata raw).get ⟨i, hi⟩ =
        { id := assignedId (i + 1),
          text := pystrip (raw.questions.get ⟨i, hq⟩).question,
          main_concept :=
            match (raw.questions.get ⟨i, hq⟩).matches_ with
            | [] => UNKNOWN
            | m0 :: _ => m0.concept,
          concepts :=
            match (raw.questions.get ⟨i, hq⟩).matches_ with
            | [] => []
            | _ :: _ =>
              ((raw.questions.get ⟨i, hq⟩).matches_.take 3).filterMap fun m =>
                if m.concept.isEmpty then none else some (pystrip m.concept) }) ∧
    (∀ i j (hi : i < (normalize_metadata raw).length)
        (hj : j < (normalize_metadata raw).length), i < j →
      fromDigits (((normalize_metadata raw).get ⟨i, hi⟩).id.drop 2) <
        fromDigits (((normalize_metadata raw).get ⟨j, hj⟩).id.drop 2)) := by
  have hget : ∀ i (hi : i < (normalize_metadata raw).length)
      (hq : i < raw.questions.length),
      (normalize_metadata raw).get ⟨i, hi⟩ =
        normalizeItem (i + 1) (raw.questions.get ⟨i, hq⟩) := by
    intro i hi hq
    have h1 : (normalize_metadata raw).get? i =
        some ((normalize_metadata raw).get ⟨i, hi⟩) := List.get?_eq_get hi
    have h2 : (normalize_metadata raw).get? i =
        (raw.questions.get? i).map (normalizeItem (1 + i)) := by
      rw [normalize_metadata]
      exact normalize_go_get? 1 i raw.questions
    rw [List.get?_eq_get hq] at h2
    have h2x : (normalize_metadata raw).get? i =
        some (normalizeItem (1 + i) (raw.questions.get ⟨i, hq⟩)) := h2
    have h3 := Option.some.inj (h1.symm.trans h2x)
    rw [h3]
    have e : 1 + i = i + 1 := by omega
    rw [e]
  have hlen : (normalize_metadata raw).length = raw.questions.length := by
    rw [normalize_metadata]
    exact normalize_go_length 1 raw.questions
  refine ⟨hlen, ?_, ?_⟩
  · intro i hi hq
    rw [hget i hi hq]
    rw [normalizeItem]
    cases (raw.questions.get ⟨i, hq⟩).matches_ <;> rfl
  · intro i j hi hj hij
    have hq_i : i < raw.questions.length := by omega
    have hq_j : j < raw.questions.length := by omega
    rw [hget i hi hq_i, hget j hj hq_j]
    rw [normalizeItem_id, normalizeItem_id]
    rw [fromDigits_assignedId, fromDigits_assignedId]
    omega

/-- Witness for claim C6 at a one-item dataset: the record carries the
first id, the stripped text, the verbatim first-match concept and the
stripped concept names. -/
theorem normalize_metadata_spec_witness :
    (normalize_metadata
        ⟨[⟨" hi ".toList, [⟨" a ".toList⟩, ⟨"b".toList⟩]⟩]⟩).get ⟨0, by decide⟩ =
      { id := "q_001".toList, text := "hi".toList, main_concept := " a ".toList,
        concepts := ["a".toList, "b".toList] } :=
  ((normalize_metadata_spec
    ⟨[⟨" hi ".toList, [⟨" a ".toList⟩, ⟨"b".toList⟩]⟩]⟩).2.1 0 (by decide)
    (by decide)).trans (by decide)

/-- Counterexample for claim C6 as stated: a match whose concept name
carries surrounding whitespace is stored stripped by the normalizer,
not verbatim as the claim words it. -/
theorem normalize_metadata_concepts_counterexample :
    (normalize_metadata ⟨[⟨"t".toList, [⟨" a ".toList⟩]⟩]⟩).map
        (fun d => d.concepts) = [["a".toList]] ∧
    claimConceptNames ⟨"t".toList, [⟨" a ".toList⟩]⟩ = [[' ', 'a', ' ']] ∧
    ["a".toList] ≠ [[' ', 'a', ' ']] := by
  decide

/-- Claim C7, amended: the normalizer always stores at most three
concepts per Document, and every concept stored by the fragment decoder
is non-empty and stripped of surrounding whitespace; neither function
guarantees the other bound in general. -/
theorem concepts_invariant_amended :
    (∀ raw : RawData, ∀ d ∈ normalize_metadata raw, d.concepts.length ≤ 3) ∧
    (∀ s : Str, ∀ c ∈ (_parse_block s).concepts, c ≠ [] ∧ pystrip c = c) := by
  constructor
  · intro raw d hd
    rw [normalize_metadata] at hd
    rcases mem_normalize_go 1 raw.questions d hd with ⟨i, item, hitem⟩
    subst hitem
    rw [normalizeItem]
    cases item.matches_ with
    | nil => simp
    | cons m0 rest =>
      simp only []
      calc ((((m0 :: rest).take 3).filterMap fun m =>
              if m.concept.isEmpty then none else some (pystrip m.concept))).length
          ≤ ((m0 :: rest).take 3).length := List.length_filterMap_le _ _
        _ ≤ 3 := List.length_take_le _ _
  · intro s c hc
    rw [_parse_block] at hc
    by_cases h0 : (splitlines s).isEmpty
    · rw [if_pos h0] at hc
      simp at hc
    · rw [if_neg h0] at hc
      rw [parse_fields_concepts] at hc
      rcases List.mem_filterMap.mp hc with ⟨a, ha, hfa⟩
      simp only [] at hfa
      by_cases he : (pystrip a).isEmpty = true
      · rw [if_pos he] at hfa
        exact absurd hfa (by simp)
      · rw [if_neg he] at hfa
        have hc2 : pystrip a = c := by simpa using hfa
        have hane : pystrip a ≠ [] := by
          intro hx
          rw [hx] at he
          exact he rfl
        constructor
        · rw [← hc2]
          exact hane
        · rw [← hc2, pystrip_idem]

/-- Witness for claim C7 at a concrete fragment: the decoded concept is
non-empty and stripped. -/
theorem concepts_invariant_amended_witness :
    "a".toList ≠ [] ∧ pystrip "a".toList = "a".toList :=
  concepts_invariant_amended.2
    "[ID: x]\n[MAIN_CONCEPT: m]\n[CONCEPTS: a]".toList "a".toList (by decide)

/-- Counterexample for claim C7 as stated: a fragment with four concept
names decodes to four concepts, so the decoder does not enforce the
three-entry bound, and a whitespace-only concept name passes the
normalizer as an entry that is empty after trimming. -/
theorem concepts_invariant_counterexample :
    3 < ((_parse_block
      "[ID: x]\n[MAIN_CONCEPT: m]\n[CONCEPTS: a; b; c; d]".toList).concepts).length ∧
    (normalize_metadata ⟨[⟨"t".toList, [⟨" ".toList⟩]⟩]⟩).map
      (fun d => d.concepts) = [[[]]] := by
  decide

theorem find?_some_pred {α : Type} (p : α → Bool) (l : List α) (a : α)
    (h : l.find? p = some a) : p a = true := by
  induction l with
  | nil => simp at h
  | cons x xs ih =>
    rw [List.find?_cons] at h
    cases hx : p x with
    | true =>
      rw [hx] at h
      simp only [Option.some.injEq] at h
      rw [← h]
      exact hx
    | false =>
      rw [hx] at h
      exact ih h

/-- Claim C8, amended: the loader raises the missing-input error exactly
when the file is absent; for a present file parsing to a JSON object it
raises the malformed-input error exactly when the questions key is
absent or its value is not a list and otherwise returns the data
unchanged; a present file whose JSON is not an object can instead
surface a type error from the containment check or the subscript, so
the raises-iff statement holds only for object-rooted input. -/
theorem load_raw_metadata_spec :
    load_raw_metadata none = .error .fileNotFound ∧
    (∀ j : Json, load_raw_metadata (some j) ≠ .error .fileNotFound) ∧
    (∀ entries : List (Str × Json),
      load_raw_metadata (some (.obj entries)) =
        (match entries.find? (fun kv => kv.1 == questionsKey) with
         | some kv =>
           if isListJson kv.2 then .ok (.obj entries) else .error .valueError
         | none => .error .valueError)) := by
  refine ⟨rfl, ?_, ?_⟩
  · intro j
    cases j with
    | null => simp [load_raw_metadata, pyContains]
    | bool b => simp [load_raw_metadata, pyContains]
    | num n => simp [load_raw_metadata, pyContains]
    | str s =>
      by_cases hc : strContains questionsKey s
      · simp [load_raw_metadata, pyContains, jsonGet, hc]
      · simp [load_raw_metadata, pyContains, jsonGet, hc]
    | arr elems =>
      by_cases hc : elems.any fun el =>
          match el with
          | .str s2 => s2 == questionsKey
          | _ => false
      · simp [load_raw_metadata, pyContains, jsonGet, hc]
      · simp [load_raw_metadata, pyContains, jsonGet, hc]
    | obj entries =>
      by_cases hc : entries.any fun kv => kv.1 == questionsKey
      · cases hf : entries.find? (fun kv => kv.1 == questionsKey) with
        | none => simp [load_raw_metadata, pyContains, jsonGet, hc, hf]
        | some kv =>
          by_cases hl : isListJson kv.2
          · simp [load_raw_metadata, pyContains, jsonGet, hc, hf, hl]
          · simp [load_raw_metadata, pyContains, jsonGet, hc, hf, hl]
      · simp [load_raw_metadata, pyContains, jsonGet, hc]
  · intro entries
    cases hf : entries.find? (fun kv => kv.1 == questionsKey) with
    | none =>
      have hany : entries.any (fun kv => kv.1 == questionsKey) = false := by
        rw [← Bool.not_eq_true]
        intro hcontra
        rcases List.any_eq_true.mp hcontra with ⟨x, hx, hpx⟩
        exact List.find?_eq_none.mp hf x hx hpx
      simp [load_raw_metadata, pyContains, hany]
    | some kv =>
      have hany : entries.any (fun kv => kv.1 == questionsKey) = true := by
        apply List.any_eq_true.mpr
        exact ⟨kv, List.mem_of_find?_eq_some hf,
          find?_some_pred (fun kv => kv.1 == questionsKey) entries kv hf⟩
      by_cases hl : isListJson kv.2
      · simp [load_raw_metadata, pyContains, jsonGet, hany, hf, hl]
      · simp [load_raw_metadata, pyContains, jsonGet, hany, hf, hl]

/-- Witness for claim C8: a present object with a list under the
questions key is returned unchanged. -/
theorem load_raw_metadata_spec_witness :
    load_raw_metadata (some (Json.obj [(questionsKey, Json.arr [])])) =
      Except.ok (Json.obj [(questionsKey, Json.arr [])]) :=
  (load_raw_metadata_spec.2.2 [(questionsKey, Json.arr [])]).trans (by rfl)

/-- Counterexample for claim C8 as stated: a present file whose
well-formed JSON is the number five has no questions key, yet the
loader raises a type error, which is neither the missing-input nor the
malformed-input error. -/
theorem load_raw_metadata_counterexample :
    load_raw_metadata (some (Json.num 5)) = .error .typeError ∧
    (Except.error PyError.typeError : Except PyError Json) ≠
      .error .valueError ∧
    (Except.error PyError.typeError : Except PyError Json) ≠
      .error .fileNotFound := by
  refine ⟨rfl, by simp, by simp⟩

theorem getLast?_cons_ne_nil {α : Type} (a : α) (l : List α) (h : l ≠ []) :
    (a :: l).getLast? = l.getLast? := by
  rw [show a :: l = [a] ++ l from rfl]
  exact List.getLast?_append_of_ne_nil _ h

theorem corpus_block_head (e : Doc) : ∃ t, corpus_block e = '[' :: t := by
  rw [corpus_block_eq, bracketLine, List.cons_append]
  exact ⟨_, rfl⟩

theorem getLast?_corpus_block (e : Doc) : (corpus_block e).getLast? = some '-' := by
  rw [corpus_block_eq]
  rw [List.getLast?_append_of_ne_nil _ (by simp)]
  rw [getLast?_cons_ne_nil _ _ (by simp)]
  rw [List.getLast?_append_of_ne_nil _ (by simp)]
  rw [getLast?_cons_ne_nil _ _ (by simp)]
  rw [List.getLast?_append_of_ne_nil _ (by simp)]
  rw [getLast?_cons_ne_nil _ _ (by simp)]
  rw [getLast?_cons_ne_nil _ _ (by simp)]
  rw [List.getLast?_append_of_ne_nil _ (by simp)]
  rw [getLast?_cons_ne_nil _ _ (by simp)]
  rw [getLast?_cons_ne_nil _ _ (by decide)]
  decide

theorem getLast?_join_blocks (es : List Doc) (hne : es ≠ []) :
    (pyJoin "\n\n".toList (es.map corpus_block)).getLast? = some '-' := by
  induction es with
  | nil => exact absurd rfl hne
  | cons e rest ih =>
    cases rest with
    | nil =>
      rw [List.map_singleton, pyJoin]
      exact getLast?_corpus_block e
    | cons e2 r =>
      rw [List.map_cons, List.map_cons, pyJoin]
      have hJ := ih (by simp)
      rw [List.map_cons] at hJ
      have hJne : pyJoin "\n\n".toList (corpus_block e2 :: r.map corpus_block) ≠ [] :=
        ne_nil_of_getLast?_some _ _ hJ
      rw [List.getLast?_append_of_ne_nil _ hJne]
      exact hJ

theorem head_join_blocks (es : List Doc) (hne : es ≠ []) :
    ∃ t, pyJoin "\n\n".toList (es.map corpus_block) = '[' :: t := by
  cases es with
  | nil => exact absurd rfl hne
  | cons e rest =>
    cases rest with
    | nil =>
      rw [List.map_singleton, pyJoin]
      exact corpus_block_head e
    | cons e2 r =>
      rw [List.map_cons, List.map_cons, pyJoin]
      rcases corpus_block_head e with ⟨t, ht⟩
      rw [ht, List.cons_append, List.cons_append]
      exact ⟨_, rfl⟩

theorem pystrip_join_blocks (es : List Doc) (hne : es ≠ []) :
    pystrip (pyJoin "\n\n".toList (es.map corpus_block)) =
      pyJoin "\n\n".toList (es.map corpus_block) := by
  apply pystrip_eq_self_of_ends
  · intro b hb
    rcases head_join_blocks es hne with ⟨t, ht⟩
    rw [ht] at hb
    simp only [List.head?_cons, Option.some.injEq] at hb
    rw [← hb]
    decide
  · intro b hb
    rw [getLast?_join_blocks es hne] at hb
    simp only [Option.some.injEq] at hb
    rw [← hb]
    decide

/-- Claim C9, amended: for a non-empty entry list the built blob is the
blocks joined with one blank line and finished with exactly one
trailing newline; the joined core is already stripped, so the final
strip is the identity and the blob ends in exactly one newline; within
each block the concepts header joins the non-empty concepts with the
two-character separator, an all-empty list yielding the empty bracket
body.  The only amendment to the claim is that empty concept entries
are skipped before joining. -/
theorem build_corpus_text_spec (es : List Doc) (hne : es ≠ []) :
    build_corpus_text es = pyJoin "\n\n".toList (es.map corpus_block) ++ ['\n'] ∧
    pystrip (pyJoin "\n\n".toList (es.map corpus_block)) =
      pyJoin "\n\n".toList (es.map corpus_block) ∧
    (∀ e1 e2 : Doc, build_corpus_text [e1, e2] =
      corpus_block e1 ++ '\n' :: '\n' :: (corpus_block e2 ++ ['\n'])) ∧
    (∀ e ∈ es, corpus_block e =
      bracketLine "ID".toList (pystrip e.id) ++ '\n' ::
        (bracketLine "MAIN_CONCEPT".toList (pystrip e.main_concept) ++ '\n' ::
          (bracketLine "CONCEPTS".toList
              (pyJoin "; ".toList (e.concepts.filter fun c => !c.isEmpty)) ++
            '\n' :: '\n' ::
              (pystrip e.text ++ '\n' :: '\n' :: separatorLine)))) := by
  refine ⟨?_, pystrip_join_blocks es hne, ?_, ?_⟩
  · rw [build_corpus_text, pystrip_join_blocks es hne]
  · intro e1 e2
    rw [build_corpus_text, pystrip_join_blocks [e1, e2] (by simp)]
    rw [List.map_cons, List.map_singleton, pyJoin, pyJoin]
    simp
  · intro e he
    exact corpus_block_eq e

/-- Witness for claim C9 at a singleton entry list. -/
theorem build_corpus_text_spec_witness :
    build_corpus_text [⟨"q_001".toList, "m".toList, ["a".toList], "t".toList⟩] =
      pyJoin "\n\n".toList
        ([(⟨"q_001".toList, "m".toList, ["a".toList], "t".toList⟩ : Doc)].map
          corpus_block) ++ ['\n'] :=
  (build_corpus_text_spec _ (by simp)).1

/-- Counterexample for claim C9 as stated: a Document carrying an empty
concept entry is rendered with that entry skipped, so the blob differs
from the one the claim words would produce by joining every concept. -/
theorem build_corpus_text_counterexample :
    build_corpus_text
        [⟨"q_001".toList, "m".toList, ["a".toList, [], "b".toList], "t".toList⟩] ≠
      claim_build_corpus_text
        [⟨"q_001".toList, "m".toList, ["a".toList, [], "b".toList], "t".toList⟩] := by
  decide

/-- Witness for claim C1 at a concrete Document with two concepts and a
two-line question text. -/
theorem roundtrip_amended_witness :
    _parse_block (corpus_block
      ⟨"q_001".toList, "Algebra".toList,
        ["Algebra".toList, "Geometry".toList],
        "What is x?\nSolve for x.".toList⟩) =
      ⟨"q_001".toList, "Algebra".toList,
        ["Algebra".toList, "Geometry".toList],
        "What is x?\nSolve for x.".toList⟩ :=
  roundtrip_amended _ (by decide) (by decide) (by decide) (by decide) (by decide)
    (by decide) (by decide) (by decide) (by decide) (by decide)

/-- Counterexample for claim C1 as stated: a Document with empty text
meets the stated conditions — no field holds a separator line and none
carries surrounding whitespace — yet decoding its encoded block does
not reproduce it, because the decoder falls back to the whole block as
the text. -/
theorem roundtrip_counterexample :
    (pystrip ("q_001".toList : Str) = "q_001".toList ∧
      noSeparatorLine ("q_001".toList : Str)) ∧
    (pystrip ("Algebra".toList : Str) = "Algebra".toList ∧
      noSeparatorLine ("Algebra".toList : Str)) ∧
    (pystrip ([] : Str) = [] ∧ noSeparatorLine ([] : Str)) ∧
    _parse_block (corpus_block
      ⟨"q_001".toList, "Algebra".toList, ["Algebra".toList], []⟩) ≠
      ⟨"q_001".toList, "Algebra".toList, ["Algebra".toList], []⟩ := by
  decide
